import Mathlib

/-!
# Verification of the file-integrity-monitor scan-and-diff engine

Shallow embedding of `file_integrity_monitor.py`: the digest engine
(`hash_file`), the ignore matcher (`load_ignore_spec` / `is_ignored` in its
fnmatch fallback configuration, i.e. `PATHSPEC_AVAILABLE = False`), the tree
scanner (`scan_directory`, modelling `os.walk` with in-place pruning), the
snapshot store (`save_state` / `load_state`, modelling `json.dump` /
`json.load` on a string-to-string object at the character level), and the
differ (`compare_states`).

Modelling conventions:
- A directory tree is an `Entry` tree; file content is a `String` of the
  file's bytes; a `readable` flag models whether `open` succeeds
  (`PermissionError` / mid-scan deletion otherwise).
- Python `dict`s are association lists in insertion order (`Snapshot`).
- The hash library is a parameter (`HashLib`): a supported-algorithm
  predicate modelling `hashlib.new` succeeding, and a digest function.
- `os.walk(directory)` lists each directory's entries in an OS-defined order
  that the program does not observe (spec 4.3: traversal order is not
  guaranteed); the model walks children in list order, descending into a
  subdirectory at its position in the listing.  Pruning of an ignored
  subdirectory is decided exactly once, before descent, as in the source.
-/

/-! ## Basic string utilities -/

/-- Boolean prefix test on lists: `hasPre p s` is true iff `p` is an initial
segment of `s`.  Models Python `str.startswith` via the underlying
character lists. -/
def hasPre : List Char → List Char → Bool
  | [], _ => true
  | _ :: _, [] => false
  | p :: ps, c :: cs => p = c && hasPre ps cs

/-- `os.path.basename` for POSIX paths: the part after the last slash. -/
def basename (p : String) : String :=
  String.mk ((p.data.reverse.takeWhile (fun c => c ≠ '/')).reverse)

/-- True iff the pattern's final character is `/` (Python `pat.endswith("/")`). -/
def endsSlash (pat : String) : Bool :=
  match pat.data.getLast? with
  | some '/' => true
  | _ => false

/-- Python `pat[:-1]`: the string without its final character. -/
def dropLastStr (pat : String) : String :=
  String.mk pat.data.dropLast

/-- The root-relative POSIX path assembled from a list of components, as
`os.path.relpath` returns it for a path built by `os.path.join` under the
root: components joined by `/`. -/
def relString : List String → String
  | [] => ""
  | [a] => a
  | a :: l => a ++ "/" ++ relString l

/-! ## fnmatch model

The fallback ignore engine calls `fnmatch.fnmatch(name, pat)` from the
Python standard library.  On POSIX `os.path.normcase` is the identity, so
`fnmatch.fnmatch` is whole-string glob matching: `*` matches any sequence
of characters (including `/`), `?` any single character, `[...]` a
character class with ranges and leading-`!` negation, where a `[` with no
closing `]` is a literal `[` and a `]` directly after `[` or `[!` belongs
to the class body.  (For a syntactically valid class, an inverted range
`[b-a]` here matches no character; CPython's translation merges such
chunks, a pathological case no claim depends on.)  Following
`fnmatch.translate`, the pattern is first compiled to a token list and the
tokens are then run against the string. -/

/-- One compiled glob token. -/
inductive GlobTok where
  | star
  | qmark
  | lit (c : Char)
  | cls (negated : Bool) (items : List (Char × Char))
deriving Repr, DecidableEq

/-- Scan forward to the closing `]` of a character class, returning the
class body and the remainder after `]`. -/
def scanClose : List Char → Option (List Char × List Char)
  | [] => none
  | ']' :: r => some ([], r)
  | c :: r =>
    match scanClose r with
    | some (s, rest) => some (c :: s, rest)
    | none => none

/-- Delimit a character class starting just after `[`, with Python's scan:
a leading `!` and then a leading `]` are part of the body. -/
def bracketSpan (cs : List Char) : Option (List Char × List Char) :=
  match cs with
  | '!' :: ']' :: r =>
    match scanClose r with
    | some (s, rest) => some ('!' :: ']' :: s, rest)
    | none => none
  | '!' :: r =>
    match scanClose r with
    | some (s, rest) => some ('!' :: s, rest)
    | none => none
  | ']' :: r =>
    match scanClose r with
    | some (s, rest) => some (']' :: s, rest)
    | none => none
  | r => scanClose r

/-- Parse a class body into ranges: `a-b` between two characters is a
range, a trailing `-` is literal, a single character is the range from
itself to itself. -/
def classItems : List Char → List (Char × Char)
  | [] => []
  | [a] => [(a, a)]
  | [a, b] => [(a, a), (b, b)]
  | a :: '-' :: b :: rest => (a, b) :: classItems rest
  | a :: rest => (a, a) :: classItems rest

/-- Does character `c` fall in one of the class ranges? -/
def inClassItems (items : List (Char × Char)) (c : Char) : Bool :=
  items.any fun lohi => decide (lohi.1 ≤ c) && decide (c ≤ lohi.2)

/-- Compile a glob pattern to tokens, following `fnmatch.translate`.
`fuel` bounds the recursion; every step consumes at least one input
character, so `cs.length` suffices and the result is fuel-independent for
any fuel of at least that size. -/
def translateGlob (fuel : Nat) (cs : List Char) : List GlobTok :=
  match fuel, cs with
  | _, [] => []
  | 0, _ => []
  | fuel + 1, '*' :: r => .star :: translateGlob fuel r
  | fuel + 1, '?' :: r => .qmark :: translateGlob fuel r
  | fuel + 1, '[' :: r =>
    (match bracketSpan r with
     | some (stuff, rest) =>
       (match stuff with
        | '!' :: body => .cls true (classItems body)
        | body => .cls false (classItems body)) :: translateGlob fuel rest
     | none => .lit '[' :: translateGlob fuel r)
  | fuel + 1, c :: r => .lit c :: translateGlob fuel r

/-- Run compiled glob tokens against a string, whole-string semantics
(the translated regex is anchored with `\Z`).  `fuel` bounds the
recursion; every step strictly decreases `toks.length + s.length`, so
`toks.length + s.length + 1` suffices and the result is fuel-independent
for any fuel of at least that size. -/
def runGlob (fuel : Nat) (toks : List GlobTok) (s : List Char) : Bool :=
  match fuel, toks, s with
  | 0, _, _ => false
  | _ + 1, [], s => s.isEmpty
  | fuel + 1, .star :: ps, s =>
    runGlob fuel ps s ||
      (match s with
       | [] => false
       | _ :: s' => runGlob fuel (.star :: ps) s')
  | _ + 1, .qmark :: _, [] => false
  | fuel + 1, .qmark :: ps, _ :: s' => runGlob fuel ps s'
  | _ + 1, .lit _ :: _, [] => false
  | fuel + 1, .lit c :: ps, d :: s' => (c = d) && runGlob fuel ps s'
  | _ + 1, .cls _ _ :: _, [] => false
  | fuel + 1, .cls neg items :: ps, d :: s' =>
    (if neg then !inClassItems items d else inClassItems items d) && runGlob fuel ps s'

/-- Model of `fnmatch.fnmatch(name, pat)` on POSIX. -/
def fnmatchB (name : String) (pat : String) : Bool :=
  let toks := translateGlob pat.data.length pat.data
  runGlob (toks.length + name.data.length + 1) toks name.data

example : fnmatchB "build" "build" = true := by decide
example : fnmatchB "build2" "build*" = true := by decide
example : fnmatchB "a.txt" "*.txt" = true := by decide
example : fnmatchB "a.txt" "*.log" = false := by decide
example : fnmatchB "ab" "a?" = true := by decide
example : fnmatchB "a7" "a[0-9]" = true := by decide
example : fnmatchB "ax" "a[0-9]" = false := by decide
example : fnmatchB "ax" "a[!0-9]" = true := by decide
example : fnmatchB "a[" "a[" = true := by decide

/-! ## Ignore matcher (fallback engine) -/

/-- `IGNORE_FILE` from the source: the rules file name inside the watched
directory. -/
def IGNORE_FILE : String := ".fimignore"

/-- `STATE_FILE` from the source: the baseline file name in the working
directory. -/
def STATE_FILE : String := "file_hashes.json"

/-- The directory-rule test of the fallback engine for a rule `base + "/"`
against a relative path `r`:
`fnmatch.fnmatch(r, base) or r.startswith(base + "/")`. -/
def dirRuleMatches (base r : String) : Bool :=
  fnmatchB r base || hasPre (base.data ++ ['/']) r.data

/-- Model of `is_ignored(path_abs, root_dir, ignore, is_dir)` in the
fnmatch fallback configuration.  `rel` is `os.path.relpath(path_abs,
root_dir)` in POSIX form, which for the paths the scanner builds with
`os.path.join` under the root is exactly the slash-joined component path.
Each pattern is tried in order and the first hit returns true: a pattern
ending in `/` ignores the directory itself (when `is_dir`) and anything
under it, and every pattern is also tried with fnmatch against the full
relative path and against its basename. -/
def is_ignored (rel : String) (ignore : Option (List String)) (isDir : Bool) : Bool :=
  match ignore with
  | none => false
  | some pats =>
    pats.any fun pat =>
      (if endsSlash pat then
         let base := dropLastStr pat
         (isDir && dirRuleMatches base rel) || hasPre (base.data ++ ['/']) rel.data
       else false)
      || fnmatchB rel pat || fnmatchB (basename rel) pat

/-! ## Directory trees -/

/-- A directory entry: a file with its readability and byte content, or a
subdirectory with its children. -/
inductive Entry where
  | file (name : String) (readable : Bool) (content : String)
  | dir (name : String) (children : List Entry)

/-- Filesystem well-formedness: every entry name is nonempty and free of
the path separator, as OS directory listings guarantee. -/
def nameOk (n : String) : Bool :=
  (n != "") && !(n.data.contains '/')

/-- `wfTree es` holds when every name in the tree satisfies `nameOk`. -/
def wfTree : List Entry → Bool
  | [] => true
  | .file n _ _ :: tl => nameOk n && wfTree tl
  | .dir n ch :: tl => nameOk n && wfTree ch && wfTree tl

/-- Python `line.strip()` for the ASCII whitespace it removes. -/
def isStripChar (c : Char) : Bool :=
  c = ' ' || c = '\t' || c = '\n' || c = '\r' || c = '\x0b' || c = '\x0c'

/-- Strip leading and trailing whitespace from a character list. -/
def stripChars (cs : List Char) : List Char :=
  ((cs.dropWhile isStripChar).reverse.dropWhile isStripChar).reverse

/-- Split file content at newline characters (iterating a text-mode file
line by line; `strip` then removes the terminators). -/
def splitNl : List Char → List (List Char)
  | [] => [[]]
  | '\n' :: tl => [] :: splitNl tl
  | c :: tl =>
    match splitNl tl with
    | h :: t => (c :: h) :: t
    | [] => [[c]]

/-- The kept lines of a rules file: stripped, nonempty, not `#`-comments. -/
def parseIgnoreLines (content : String) : List String :=
  (((splitNl content.data).map stripChars).filter
      (fun l => !l.isEmpty && !hasPre ['#'] l)).map String.mk

/-- Whether the `open` inside `load_ignore_spec` succeeds.
`os.path.exists(<directory>/.fimignore)` is true for a file or a
directory of that name; the subsequent `open(..., "r")` then raises
`PermissionError` on an unreadable file and `IsADirectoryError` on a
directory, and the uncaught exception aborts the scan before any file is
hashed.  When no such entry exists, `load_ignore_spec` returns
`(None, False)` without opening anything. -/
def ignoreFileOpens (children : List Entry) : Bool :=
  match children.find? (fun e => match e with
      | .file n _ _ => n = IGNORE_FILE
      | .dir n _ => n = IGNORE_FILE) with
  | none => true
  | some (.file _ rdable _) => rdable
  | some (.dir _ _) => false

/-- Model of `load_ignore_spec(directory)` restricted to the fallback
engine, reading `<directory>/.fimignore` from the root's children: `none`
when the file does not exist or keeps no lines (the source's
`(None, False)`), otherwise the kept pattern lines.  The rules this
function returns are consulted only after `ignoreFileOpens` has ruled out
the `open` error paths, which `scan_directory` surfaces as `osError`. -/
def load_ignore_spec (children : List Entry) : Option (List String) :=
  match children.find? (fun e => match e with
      | .file n _ _ => n = IGNORE_FILE
      | .dir n _ => n = IGNORE_FILE) with
  | some (.file _ _ content) =>
    let lines := parseIgnoreLines content
    if lines.isEmpty then none else some lines
  | _ => none

/-! ## Tree scanner -/

/-- The `os.walk` loop of `scan_directory`, producing the files that reach
the hashing step, each with its absolute path, readability and content.
At each directory the ignored subdirectories are pruned before descent
(`dirs[:] = pruned`); a file is skipped when its basename is the rules
file name or when `is_ignored` flags it.  Children are processed in
listing order, the subdirectory descent at its position (the OS listing
order is not observable, spec 4.3). -/
def scanWalk (spec : Option (List String)) :
    (curAbs : String) → (curRel : List String) → (entries : List Entry) →
      List (String × Bool × String)
  | _, _, [] => []
  | curAbs, curRel, .file n rdable content :: tl =>
    (let fp := curAbs ++ "/" ++ n
     if basename fp = IGNORE_FILE then []
     else if is_ignored (relString (curRel ++ [n])) spec false then []
     else [(fp, rdable, content)]) ++ scanWalk spec curAbs curRel tl
  | curAbs, curRel, .dir n ch :: tl =>
    (if is_ignored (relString (curRel ++ [n])) spec true then []
     else scanWalk spec (curAbs ++ "/" ++ n) (curRel ++ [n]) ch)
      ++ scanWalk spec curAbs curRel tl

/-! ## Digest engine -/

/-- The uncaught exceptions that abort a scan: the
`ValueError(f"Unsupported hash algorithm: {algorithm}")` raised by
`hash_file`, and the `OSError` (`PermissionError` for an unreadable rules
file, `IsADirectoryError` for a directory named like it) raised by
`load_ignore_spec`'s `open`. -/
inductive ScanErr where
  | invalidAlgorithm
  | osError
deriving Repr, DecidableEq

/-- The hash library as the engine sees it: which algorithm names
`hashlib.new` accepts, and the hex digest of a byte string under an
algorithm. -/
structure HashLib where
  avail : String → Bool
  hexdigest : String → String → String

/-- Model of `hash_file(filepath, algorithm)`.  The argument is the state
of the path at call time: `none` when no file exists there, otherwise the
readability and content.  `hashlib.new` is tried first, so an unsupported
algorithm raises `ValueError` before any file access; then `open` failing
with `FileNotFoundError` or `PermissionError` yields `None`, and a
successful chunked read yields the finalized hex digest. -/
def hash_file (H : HashLib) (algorithm : String) (fileState : Option (Bool × String)) :
    Except ScanErr (Option String) :=
  if H.avail algorithm then
    match fileState with
    | none => .ok none
    | some (rdable, content) =>
      if rdable then .ok (some (H.hexdigest algorithm content)) else .ok none
  else .error .invalidAlgorithm

/-- A snapshot: the `file_hashes` dict, absolute path to hex digest, in
insertion order. -/
abbrev Snapshot : Type := List (String × String)

/-- Model of `scan_directory(directory, algorithm)` on a root directory
with children `children`.  `load_ignore_spec` runs first, and its `open`
raising (an existing rules-file entry that is unreadable or a directory,
see `ignoreFileOpens`) aborts the scan with no snapshot.  The walk then
collects the files that reach `hash_file`; if the algorithm is
unsupported and some file reaches that call, the `ValueError` escapes and
no snapshot is produced.  Otherwise each file's digest is recorded under
its absolute path when truthy (`if file_hash:`): present and non-empty. -/
def scan_directory (H : HashLib) (algorithm : String) (directory : String)
    (children : List Entry) : Except ScanErr Snapshot :=
  if ignoreFileOpens children = false then .error .osError
  else if H.avail algorithm = false ∧
      scanWalk (load_ignore_spec children) directory [] children ≠ [] then
    .error .invalidAlgorithm
  else .ok ((scanWalk (load_ignore_spec children) directory [] children).filterMap
    fun c =>
      match hash_file H algorithm (some (c.2.1, c.2.2)) with
      | .ok (some s) => if s = "" then none else some (c.1, s)
      | _ => none)

/-! ## Differ -/

/-- The keys of a snapshot, in insertion order (`for f in d`). -/
def dictKeys (m : Snapshot) : List String := m.map Prod.fst

/-- Key membership (`f in d`). -/
def dictMem (m : Snapshot) (k : String) : Bool := (dictKeys m).contains k

/-- Value access (`d[f]`); snapshots built from Python dicts have unique
keys, so the first binding is the binding. -/
def dictGet (m : Snapshot) (k : String) : Option String := List.lookup k m

/-- Model of `compare_states(old, new)`: three list comprehensions over
the dicts' key orders. -/
def compare_states (old new : Snapshot) :
    List String × List String × List String :=
  let added := (dictKeys new).filter fun f => !dictMem old f
  let removed := (dictKeys old).filter fun f => !dictMem new f
  let modified := (dictKeys new).filter fun f =>
    dictMem old f && !(dictGet new f == dictGet old f)
  (added, removed, modified)

/-! ## Snapshot store

`save_state` is `json.dump(file_hashes, f, indent=4)` with the default
`ensure_ascii=True`: a `{}` for the empty dict, otherwise the members on
indented lines, each `"key": "value"` with JSON string escaping, items
separated by `,`.  `load_state` is `json.load` restricted to the shape the
state file has, an object of strings; it accepts arbitrary JSON whitespace
between tokens and rejects trailing data.  (Python's decoder also accepts
`\uXXXX` escapes denoting lone surrogates, producing non-scalar strings a
Lean `Char` cannot carry; the printer never emits them.) -/

/-- Lowercase hex digit (`'\u%04x' % n`). -/
def hexDigit (n : Nat) : Char :=
  if n < 10 then Char.ofNat (48 + n) else Char.ofNat (87 + n)

/-- Four lowercase hex digits of `n < 0x10000`. -/
def hex4 (n : Nat) : List Char :=
  [hexDigit (n / 4096 % 16), hexDigit (n / 256 % 16), hexDigit (n / 16 % 16), hexDigit (n % 16)]

/-- JSON-escape one character as the `ensure_ascii` encoder does: the
two-character shortcuts, printable ASCII verbatim, `\uXXXX` otherwise,
astral characters as a surrogate pair. -/
def escChar (c : Char) : List Char :=
  if c = '"' then ['\\', '"']
  else if c = '\\' then ['\\', '\\']
  else if c = '\n' then ['\\', 'n']
  else if c = '\r' then ['\\', 'r']
  else if c = '\t' then ['\\', 't']
  else if c.toNat = 8 then ['\\', 'b']
  else if c.toNat = 12 then ['\\', 'f']
  else if 32 ≤ c.toNat ∧ c.toNat ≤ 126 then [c]
  else if c.toNat < 65536 then '\\' :: 'u' :: hex4 c.toNat
  else
    ('\\' :: 'u' :: hex4 (55296 + (c.toNat - 65536) / 1024)) ++
      ('\\' :: 'u' :: hex4 (56320 + (c.toNat - 65536) % 1024))

/-- Escape a whole character list. -/
def escList : List Char → List Char
  | [] => []
  | c :: tl => escChar c ++ escList tl

/-- A JSON string literal for `s`. -/
def renderJString (s : String) : List Char :=
  '"' :: (escList s.data ++ ['"'])

/-- One object member, `"key": "value"`. -/
def renderMember (k v : String) : List Char :=
  renderJString k ++ ':' :: ' ' :: renderJString v

/-- The four-space indent of `indent=4`. -/
def sp4 : List Char := [' ', ' ', ' ', ' ']

/-- After the first member: `,\n    member` for each further member, then
the closing newline. -/
def renderMembersRest : Snapshot → List Char
  | [] => ['\n']
  | (k, v) :: tl => ',' :: '\n' :: (sp4 ++ (renderMember k v ++ renderMembersRest tl))

/-- The serialized state file. -/
def renderStateChars : Snapshot → List Char
  | [] => ['{', '}']
  | (k, v) :: tl => '{' :: '\n' :: (sp4 ++ (renderMember k v ++ renderMembersRest tl)) ++ ['}']

/-- Model of `save_state(file_hashes)`: the text written to `STATE_FILE`. -/
def save_state (m : Snapshot) : String :=
  String.mk (renderStateChars m)

/-- JSON whitespace. -/
def isJsonWs (c : Char) : Bool :=
  c = ' ' || c = '\t' || c = '\n' || c = '\r'

/-- Drop leading JSON whitespace. -/
def skipWs : List Char → List Char
  | [] => []
  | c :: tl => if isJsonWs c then skipWs tl else c :: tl

/-- Value of one hex digit, either case. -/
def hexVal (c : Char) : Option Nat :=
  if 48 ≤ c.toNat ∧ c.toNat ≤ 57 then some (c.toNat - 48)
  else if 97 ≤ c.toNat ∧ c.toNat ≤ 102 then some (c.toNat - 87)
  else if 65 ≤ c.toNat ∧ c.toNat ≤ 70 then some (c.toNat - 55)
  else none

/-- The character of a Unicode scalar value, `none` for a surrogate or
out-of-range code point. -/
def mkChar (n : Nat) : Option Char :=
  if n.isValidChar then some (Char.ofNat n) else none

/-- Prepend a decoded character to a string-body parse. -/
def consChar (c : Char) : Option (List Char × List Char) → Option (List Char × List Char)
  | some (s, r) => some (c :: s, r)
  | none => none

/-- Decode the required low-surrogate escape following a high surrogate
`n`: expects six characters `\uXXXX` with `XXXX` a low surrogate, and
returns the combined scalar's character (the caller consumes those six
characters). -/
def parseU2 (n : Nat) : List Char → Option Char
  | u1 :: u2 :: e1 :: e2 :: e3 :: e4 :: _ =>
    if u1 = '\\' ∧ u2 = 'u' then
      match hexVal e1, hexVal e2, hexVal e3, hexVal e4 with
      | some v1, some v2, some v3, some v4 =>
        let m := ((v1 * 16 + v2) * 16 + v3) * 16 + v4
        if 56320 ≤ m ∧ m ≤ 57343 then mkChar (65536 + (n - 55296) * 1024 + (m - 56320))
        else none
      | _, _, _, _ => none
    else none
  | _ => none

/-! Parsing the body of a JSON string after its opening quote: the decoded
characters and the remainder after the closing quote.  Escapes are the
standard ones; `\uXXXX` pairs of surrogates combine into one scalar; an
unpaired surrogate escape or a literal control character is rejected. -/
mutual

/-- Main string-body loop, positioned after the opening quote. -/
def parseStringBody : List Char → Option (List Char × List Char)
  | [] => none
  | c :: cs =>
    if c = '"' then some ([], cs)
    else if c = '\\' then parseEsc cs
    else if c.toNat < 32 then none
    else consChar c (parseStringBody cs)
termination_by cs => cs.length
decreasing_by
  all_goals (simp only [List.length_cons, List.length_drop]; omega)

/-- Dispatch on the character after a backslash. -/
def parseEsc : List Char → Option (List Char × List Char)
  | [] => none
  | e :: cs2 =>
    if e = '"' then consChar '"' (parseStringBody cs2)
    else if e = '\\' then consChar '\\' (parseStringBody cs2)
    else if e = '/' then consChar '/' (parseStringBody cs2)
    else if e = 'n' then consChar '\n' (parseStringBody cs2)
    else if e = 't' then consChar '\t' (parseStringBody cs2)
    else if e = 'r' then consChar '\r' (parseStringBody cs2)
    else if e = 'b' then consChar (Char.ofNat 8) (parseStringBody cs2)
    else if e = 'f' then consChar (Char.ofNat 12) (parseStringBody cs2)
    else if e = 'u' then parseU cs2
    else none
termination_by cs => cs.length
decreasing_by
  all_goals (simp only [List.length_cons, List.length_drop]; omega)

/-- Four hex digits after `\u`; a high surrogate is combined with its
required low-surrogate escape by `parseU2`. -/
def parseU : List Char → Option (List Char × List Char)
  | a :: b :: c1 :: d :: rest =>
    (match hexVal a, hexVal b, hexVal c1, hexVal d with
     | some va, some vb, some vc, some vd =>
       let n := ((va * 16 + vb) * 16 + vc) * 16 + vd
       if 55296 ≤ n ∧ n ≤ 56319 then
         match parseU2 n rest with
         | some ch => consChar ch (parseStringBody (rest.drop 6))
         | none => none
       else
         match mkChar n with
         | some ch => consChar ch (parseStringBody rest)
         | none => none
     | _, _, _, _ => none)
  | _ => none
termination_by cs => cs.length
decreasing_by
  all_goals (simp only [List.length_cons, List.length_drop]; omega)

end

/-- Parse the members of a nonempty object, positioned after `{`,
returning them and the remainder after `}`.  `fuel` bounds the recursion;
every member consumes at least one character, so any fuel above the input
length suffices. -/
def parseMembersAux : Nat → List Char → Option (Snapshot × List Char)
  | 0, _ => none
  | fuel + 1, cs =>
    match skipWs cs with
    | '"' :: r1 =>
      (match parseStringBody r1 with
       | some (kcs, r2) =>
         (match skipWs r2 with
          | ':' :: r3 =>
            (match skipWs r3 with
             | '"' :: r4 =>
               (match parseStringBody r4 with
                | some (vcs, r5) =>
                  (match skipWs r5 with
                   | ',' :: r6 =>
                     (match parseMembersAux fuel r6 with
                      | some (tl, rest) =>
                        some ((String.mk kcs, String.mk vcs) :: tl, rest)
                      | none => none)
                   | '}' :: r6 => some ([(String.mk kcs, String.mk vcs)], r6)
                   | _ => none)
                | none => none)
             | _ => none)
          | _ => none)
       | none => none)
    | _ => none

/-- Parse a state file: one object of strings, nothing but whitespace
after it. -/
def parseState (cs : List Char) : Option Snapshot :=
  match skipWs cs with
  | '{' :: r1 =>
    (match skipWs r1 with
     | '}' :: r2 => if (skipWs r2).isEmpty then some [] else none
     | _ =>
       match parseMembersAux (cs.length + 1) r1 with
       | some (m, rest) => if (skipWs rest).isEmpty then some m else none
       | none => none)
  | _ => none

/-- Model of `load_state()`: `none` stands for a missing `STATE_FILE`, in
which case the empty dict is returned; otherwise the stored text is
decoded. -/
def load_state (stored : Option String) : Option Snapshot :=
  match stored with
  | none => some []
  | some s => parseState s.data

example : parseState (renderStateChars []) = some [] := by decide

/-! ## CLI guard (`main`) -/

/-- What the filesystem holds at the watched path. -/
inductive PathKind where
  | absent
  | fileAt (readable : Bool) (content : String)
  | dirAt (children : List Entry)

/-- `os.path.isdir`. -/
def isdir : PathKind → Bool
  | .dirAt _ => true
  | _ => false

/-- The scan-then-persist step of `main` acting on the stored state file:
`main` returns before any scan when `os.path.isdir(args.directory)` is
false, and otherwise (both in `--init` and in the first monitor tick) runs
`scan_directory` and persists the snapshot with `save_state`; an exception
escaping the scan persists nothing. -/
def scanThenPersist (H : HashLib) (algorithm directory : String) (k : PathKind)
    (stored : Option String) : Option String :=
  match k with
  | .dirAt children =>
    match scan_directory H algorithm directory children with
    | .ok snap => some (save_state snap)
    | .error _ => stored
  | _ => stored

/-! ## Differ lemmas -/

theorem dictMem_iff {m : Snapshot} {k : String} :
    dictMem m k = true ↔ k ∈ dictKeys m := by
  simp [dictMem]

theorem mem_dictKeys_iff_lookup {m : Snapshot} {k : String} :
    k ∈ dictKeys m ↔ ∃ v, dictGet m k = some v := by
  induction m with
  | nil => simp [dictKeys, dictGet]
  | cons kv tl ih =>
    obtain ⟨a, b⟩ := kv
    by_cases h : k = a
    · subst h
      simp [dictKeys, dictGet, List.lookup]
    · simp only [dictKeys, List.map_cons, List.mem_cons] at *
      simp only [dictGet, List.lookup] at *
      have : (k == a) = false := by simp [h]
      simp [this, h, ih]

theorem compare_states_added_iff (old new : Snapshot) (f : String) :
    f ∈ (compare_states old new).1 ↔ f ∈ dictKeys new ∧ f ∉ dictKeys old := by
  have h : dictMem old f = false ↔ f ∉ dictKeys old := by
    rw [← dictMem_iff]; simp
  simp [compare_states, List.mem_filter, h]

theorem compare_states_removed_iff (old new : Snapshot) (f : String) :
    f ∈ (compare_states old new).2.1 ↔ f ∈ dictKeys old ∧ f ∉ dictKeys new := by
  have h : dictMem new f = false ↔ f ∉ dictKeys new := by
    rw [← dictMem_iff]; simp
  simp [compare_states, List.mem_filter, h]

theorem compare_states_modified_iff (old new : Snapshot) (f : String) :
    f ∈ (compare_states old new).2.2 ↔
      ∃ dNew dOld, dictGet new f = some dNew ∧ dictGet old f = some dOld ∧ dNew ≠ dOld := by
  simp only [compare_states, List.mem_filter, Bool.and_eq_true, Bool.not_eq_true',
    beq_eq_false_iff_ne, ne_eq, dictMem_iff]
  constructor
  · rintro ⟨hnew, hold, hne⟩
    obtain ⟨dNew, hdNew⟩ := mem_dictKeys_iff_lookup.mp hnew
    obtain ⟨dOld, hdOld⟩ := mem_dictKeys_iff_lookup.mp hold
    refine ⟨dNew, dOld, hdNew, hdOld, ?_⟩
    intro h
    exact hne (by rw [hdNew, hdOld, h])
  · rintro ⟨dNew, dOld, hdNew, hdOld, hne⟩
    refine ⟨mem_dictKeys_iff_lookup.mpr ⟨dNew, hdNew⟩,
      mem_dictKeys_iff_lookup.mpr ⟨dOld, hdOld⟩, ?_⟩
    rw [hdNew, hdOld]
    simp [hne]

/-- C2: `compare_states(old, new)` returns exactly: added = the keys of
`new` absent from `old`, removed = the keys of `old` absent from `new`,
and modified = the keys present in both whose digest strings are unequal
under plain string equality (no normalization). -/
theorem claim_compare_states_exact (old new : Snapshot) (f : String) :
    (f ∈ (compare_states old new).1 ↔ f ∈ dictKeys new ∧ f ∉ dictKeys old)
    ∧ (f ∈ (compare_states old new).2.1 ↔ f ∈ dictKeys old ∧ f ∉ dictKeys new)
    ∧ (f ∈ (compare_states old new).2.2 ↔
        ∃ dNew dOld, dictGet new f = some dNew ∧ dictGet old f = some dOld ∧ dNew ≠ dOld) :=
  ⟨compare_states_added_iff old new f, compare_states_removed_iff old new f,
    compare_states_modified_iff old new f⟩

/-- C3: for every pair of snapshots the three collections returned by
`compare_states` are pairwise disjoint. -/
theorem claim_compare_states_disjoint (old new : Snapshot) :
    (compare_states old new).1.Disjoint (compare_states old new).2.1
    ∧ (compare_states old new).1.Disjoint (compare_states old new).2.2
    ∧ (compare_states old new).2.1.Disjoint (compare_states old new).2.2 := by
  refine ⟨?_, ?_, ?_⟩
  · intro f h1 h2
    have a1 := (compare_states_added_iff old new f).mp h1
    have a2 := (compare_states_removed_iff old new f).mp h2
    exact a1.2 a2.1
  · intro f h1 h2
    have a1 := (compare_states_added_iff old new f).mp h1
    obtain ⟨dNew, dOld, _, hdOld, _⟩ := (compare_states_modified_iff old new f).mp h2
    exact a1.2 (mem_dictKeys_iff_lookup.mpr ⟨dOld, hdOld⟩)
  · intro f h1 h2
    have a1 := (compare_states_removed_iff old new f).mp h1
    obtain ⟨dNew, dOld, hdNew, _, _⟩ := (compare_states_modified_iff old new f).mp h2
    exact a1.2 (mem_dictKeys_iff_lookup.mpr ⟨dNew, hdNew⟩)

/-- C10: `compare_states` commits to a stable output order: added and
modified enumerate paths as sublists of `new`'s key (insertion) order,
removed as a sublist of `old`'s key order. -/
theorem claim_compare_states_order (old new : Snapshot) :
    (compare_states old new).1.Sublist (dictKeys new)
    ∧ (compare_states old new).2.1.Sublist (dictKeys old)
    ∧ (compare_states old new).2.2.Sublist (dictKeys new) :=
  ⟨List.filter_sublist _, List.filter_sublist _, List.filter_sublist _⟩

/-- C9: `load_state` on a missing state file returns the empty snapshot
rather than failing. -/
theorem claim_load_state_missing : load_state none = some [] := rfl

/-- C1: when the watched root is missing (the path does not exist or is
not a directory), the scan-then-persist step leaves the stored state file
exactly as it was. -/
theorem claim_missing_root_preserves_state (H : HashLib) (algorithm directory : String)
    (k : PathKind) (stored : Option String) (h : isdir k = false) :
    scanThenPersist H algorithm directory k stored = stored := by
  cases k with
  | absent => rfl
  | fileAt rdable content => rfl
  | dirAt children => simp [isdir] at h

theorem claim_missing_root_preserves_state_witness :
    isdir PathKind.absent = false
    ∧ scanThenPersist ⟨fun _ => true, fun _ _ => "d"⟩ "sha256" "/watched" PathKind.absent
        (some "prior contents") = some "prior contents" :=
  ⟨rfl, claim_missing_root_preserves_state ⟨fun _ => true, fun _ _ => "d"⟩ "sha256" "/watched"
    PathKind.absent (some "prior contents") rfl⟩

/-- C7: for every file state (including a missing or unreadable file),
`hash_file` under an algorithm the hash library does not support fails
with the invalid-algorithm error and never yields a digest or `Absent`. -/
theorem claim_hash_file_invalid_algorithm (H : HashLib) (algorithm : String)
    (fileState : Option (Bool × String)) (h : H.avail algorithm = false) :
    hash_file H algorithm fileState = .error .invalidAlgorithm := by
  simp [hash_file, h]

theorem claim_hash_file_invalid_algorithm_witness :
    (HashLib.mk (fun a => a == "sha256") (fun _ _ => "d")).avail "notahash" = false
    ∧ hash_file ⟨fun a => a == "sha256", fun _ _ => "d"⟩ "notahash" none
        = .error .invalidAlgorithm
    ∧ hash_file ⟨fun a => a == "sha256", fun _ _ => "d"⟩ "notahash" (some (true, "data"))
        = .error .invalidAlgorithm :=
  ⟨by decide,
    claim_hash_file_invalid_algorithm _ _ none (by decide),
    claim_hash_file_invalid_algorithm _ _ (some (true, "data")) (by decide)⟩

/-! ## Snapshot store round-trip -/

theorem hexVal_hexDigit (n : Nat) (h : n < 16) : hexVal (hexDigit n) = some n := by
  interval_cases n <;> decide

theorem char_toNat_valid (c : Char) : Nat.isValidChar c.toNat := c.valid

theorem char_toNat_cases (c : Char) :
    c.toNat < 55296 ∨ (57343 < c.toNat ∧ c.toNat < 1114112) := by
  have h := char_toNat_valid c
  rcases h with h | h
  · exact Or.inl h
  · exact Or.inr h

theorem mkChar_toNat (c : Char) : mkChar c.toNat = some c := by
  rw [mkChar, if_pos (char_toNat_valid c), Char.ofNat_toNat]

theorem parseU_hex4 (n : Nat) (hlt : n < 65536)
    (hn : ¬(55296 ≤ n ∧ n ≤ 56319)) (tail : List Char) :
    parseU (hex4 n ++ tail) =
      match mkChar n with
      | some ch => consChar ch (parseStringBody tail)
      | none => none := by
  have e1 : n / 4096 % 16 < 16 := Nat.mod_lt _ (by omega)
  have e2 : n / 256 % 16 < 16 := Nat.mod_lt _ (by omega)
  have e3 : n / 16 % 16 < 16 := Nat.mod_lt _ (by omega)
  have e4 : n % 16 < 16 := Nat.mod_lt _ (by omega)
  have hsum : ((n / 4096 % 16 * 16 + n / 256 % 16) * 16 + n / 16 % 16) * 16 + n % 16 = n := by
    omega
  rw [hex4, List.cons_append, List.cons_append, List.cons_append, List.cons_append,
    List.nil_append, parseU]
  simp [hexVal_hexDigit _ e1, hexVal_hexDigit _ e2, hexVal_hexDigit _ e3,
    hexVal_hexDigit _ e4, hsum, hn]

theorem parseU2_hex4 (n m : Nat) (hm : 56320 ≤ m ∧ m ≤ 57343) (tail : List Char) :
    parseU2 n ('\\' :: 'u' :: (hex4 m ++ tail)) =
      mkChar (65536 + (n - 55296) * 1024 + (m - 56320)) := by
  have e1 : m / 4096 % 16 < 16 := Nat.mod_lt _ (by omega)
  have e2 : m / 256 % 16 < 16 := Nat.mod_lt _ (by omega)
  have e3 : m / 16 % 16 < 16 := Nat.mod_lt _ (by omega)
  have e4 : m % 16 < 16 := Nat.mod_lt _ (by omega)
  have hsum : ((m / 4096 % 16 * 16 + m / 256 % 16) * 16 + m / 16 % 16) * 16 + m % 16 = m := by
    omega
  rw [hex4, List.cons_append, List.cons_append, List.cons_append, List.cons_append,
    List.nil_append, parseU2]
  simp [hexVal_hexDigit _ e1, hexVal_hexDigit _ e2, hexVal_hexDigit _ e3,
    hexVal_hexDigit _ e4, hsum, hm.1, hm.2]

theorem consChar_some (c : Char) (s r : List Char) :
    consChar c (some (s, r)) = some (c :: s, r) := rfl

theorem psb_quote (cs : List Char) : parseStringBody ('"' :: cs) = some ([], cs) := by
  simp [parseStringBody]

theorem psb_backslash (cs : List Char) : parseStringBody ('\\' :: cs) = parseEsc cs := by
  simp [parseStringBody]

theorem psb_lit (c : Char) (cs : List Char) (h1 : c ≠ '"') (h2 : c ≠ '\\')
    (h3 : 32 ≤ c.toNat) :
    parseStringBody (c :: cs) = consChar c (parseStringBody cs) := by
  simp only [parseStringBody]
  rw [if_neg h1, if_neg h2, if_neg (by omega)]

theorem pesc_sc1 (cs : List Char) : parseEsc ('"' :: cs) = consChar '"' (parseStringBody cs) := by
  simp [parseEsc]

theorem pesc_sc2 (cs : List Char) : parseEsc ('\\' :: cs) = consChar '\\' (parseStringBody cs) := by
  simp [parseEsc]

theorem pesc_n (cs : List Char) : parseEsc ('n' :: cs) = consChar '\n' (parseStringBody cs) := by
  simp [parseEsc]

theorem pesc_t (cs : List Char) : parseEsc ('t' :: cs) = consChar '\t' (parseStringBody cs) := by
  simp [parseEsc]

theorem pesc_r (cs : List Char) : parseEsc ('r' :: cs) = consChar '\r' (parseStringBody cs) := by
  simp [parseEsc]

theorem pesc_b (cs : List Char) :
    parseEsc ('b' :: cs) = consChar (Char.ofNat 8) (parseStringBody cs) := by
  simp [parseEsc]

theorem pesc_f (cs : List Char) :
    parseEsc ('f' :: cs) = consChar (Char.ofNat 12) (parseStringBody cs) := by
  simp [parseEsc]

theorem pesc_u (cs : List Char) : parseEsc ('u' :: cs) = parseU cs := by
  simp [parseEsc]

theorem parseU_hex4_surr (n : Nat) (hs1 : 55296 ≤ n) (hs2 : n ≤ 56319) (tail : List Char) :
    parseU (hex4 n ++ tail) =
      match parseU2 n tail with
      | some ch => consChar ch (parseStringBody (tail.drop 6))
      | none => none := by
  have e1 : n / 4096 % 16 < 16 := Nat.mod_lt _ (by omega)
  have e2 : n / 256 % 16 < 16 := Nat.mod_lt _ (by omega)
  have e3 : n / 16 % 16 < 16 := Nat.mod_lt _ (by omega)
  have e4 : n % 16 < 16 := Nat.mod_lt _ (by omega)
  have hsum : ((n / 4096 % 16 * 16 + n / 256 % 16) * 16 + n / 16 % 16) * 16 + n % 16 = n := by
    omega
  rw [hex4, List.cons_append, List.cons_append, List.cons_append, List.cons_append,
    List.nil_append, parseU]
  simp [hexVal_hexDigit _ e1, hexVal_hexDigit _ e2, hexVal_hexDigit _ e3,
    hexVal_hexDigit _ e4, hsum, hs1, hs2]

theorem parseStringBody_escList (s rest : List Char) :
    parseStringBody (escList s ++ '"' :: rest) = some (s, rest) := by
  induction s with
  | nil => rw [escList, List.nil_append, psb_quote]
  | cons c s ih =>
    rw [escList, List.append_assoc]
    by_cases h1 : c = '"'
    · subst h1
      rw [show escChar '"' = ['\\', '"'] from by decide]
      simp only [List.cons_append, List.nil_append]
      rw [psb_backslash, pesc_sc1, ih, consChar_some]
    · by_cases h2 : c = '\\'
      · subst h2
        rw [show escChar '\\' = ['\\', '\\'] from by decide]
        simp only [List.cons_append, List.nil_append]
        rw [psb_backslash, pesc_sc2, ih, consChar_some]
      · by_cases h3 : c = '\n'
        · subst h3
          rw [show escChar '\n' = ['\\', 'n'] from by decide]
          simp only [List.cons_append, List.nil_append]
          rw [psb_backslash, pesc_n, ih, consChar_some]
        · by_cases h4 : c = '\r'
          · subst h4
            rw [show escChar '\r' = ['\\', 'r'] from by decide]
            simp only [List.cons_append, List.nil_append]
            rw [psb_backslash, pesc_r, ih, consChar_some]
          · by_cases h5 : c = '\t'
            · subst h5
              rw [show escChar '\t' = ['\\', 't'] from by decide]
              simp only [List.cons_append, List.nil_append]
              rw [psb_backslash, pesc_t, ih, consChar_some]
            · by_cases h6 : c.toNat = 8
              · rw [show escChar c = ['\\', 'b'] from by
                  simp only [escChar, if_neg h1, if_neg h2, if_neg h3, if_neg h4, if_neg h5,
                    if_pos h6]]
                simp only [List.cons_append, List.nil_append]
                rw [psb_backslash, pesc_b, ih, consChar_some]
                rw [show Char.ofNat 8 = c from by rw [← h6, Char.ofNat_toNat]]
              · by_cases h7 : c.toNat = 12
                · rw [show escChar c = ['\\', 'f'] from by
                    simp only [escChar, if_neg h1, if_neg h2, if_neg h3, if_neg h4, if_neg h5,
                      if_neg h6, if_pos h7]]
                  simp only [List.cons_append, List.nil_append]
                  rw [psb_backslash, pesc_f, ih, consChar_some]
                  rw [show Char.ofNat 12 = c from by rw [← h7, Char.ofNat_toNat]]
                · by_cases h8 : 32 ≤ c.toNat ∧ c.toNat ≤ 126
                  · rw [show escChar c = [c] from by
                      simp only [escChar, if_neg h1, if_neg h2, if_neg h3, if_neg h4, if_neg h5,
                        if_neg h6, if_neg h7, if_pos h8]]
                    simp only [List.cons_append, List.nil_append]
                    rw [psb_lit c _ h1 h2 h8.1, ih, consChar_some]
                  · by_cases h9 : c.toNat < 65536
                    · rw [show escChar c = '\\' :: 'u' :: hex4 c.toNat from by
                        simp only [escChar, if_neg h1, if_neg h2, if_neg h3, if_neg h4, if_neg h5,
                          if_neg h6, if_neg h7, if_neg h8, if_pos h9]]
                      simp only [List.cons_append]
                      rw [psb_backslash, pesc_u,
                        parseU_hex4 c.toNat h9
                          (by rcases char_toNat_cases c with hA | hA <;> omega) _,
                        mkChar_toNat, ih]
                      rfl
                    · have hbig : 65536 ≤ c.toNat := by omega
                      have hlt : c.toNat < 1114112 := by
                        rcases char_toNat_cases c with hA | hA <;> omega
                      rw [show escChar c =
                          ('\\' :: 'u' :: hex4 (55296 + (c.toNat - 65536) / 1024)) ++
                            ('\\' :: 'u' :: hex4 (56320 + (c.toNat - 65536) % 1024)) from by
                        simp only [escChar, if_neg h1, if_neg h2, if_neg h3, if_neg h4, if_neg h5,
                          if_neg h6, if_neg h7, if_neg h8, if_neg h9]]
                      simp only [List.cons_append, List.append_assoc]
                      rw [psb_backslash, pesc_u,
                        parseU_hex4_surr (55296 + (c.toNat - 65536) / 1024)
                          (by omega) (by omega) _,
                        parseU2_hex4 _ _ ⟨by omega, by omega⟩,
                        show 65536 + (55296 + (c.toNat - 65536) / 1024 - 55296) * 1024 +
                            (56320 + (c.toNat - 65536) % 1024 - 56320) = c.toNat from by omega,
                        mkChar_toNat]
                      simp only [hex4, List.cons_append, List.drop_succ_cons, List.drop_zero,
                        List.nil_append]
                      rw [ih, consChar_some]

theorem string_data_mk (l : List Char) : (String.mk l).data = l := rfl

theorem string_mk_data (s : String) : String.mk s.data = s := rfl

theorem skipWs_not (c : Char) (cs : List Char) (h : isJsonWs c = false) :
    skipWs (c :: cs) = c :: cs := by
  simp [skipWs, h]

theorem skipWs_cons_ws (c : Char) (cs : List Char) (h : isJsonWs c = true) :
    skipWs (c :: cs) = skipWs cs := by
  simp [skipWs, h]

theorem skipWs_append_ws (ws x : List Char) (h : ∀ c ∈ ws, isJsonWs c = true) :
    skipWs (ws ++ x) = skipWs x := by
  induction ws with
  | nil => rw [List.nil_append]
  | cons c tl ih =>
    rw [List.cons_append, skipWs_cons_ws c _ (h c (List.mem_cons_self c tl))]
    exact ih fun c hc => h c (List.mem_cons_of_mem _ hc)

theorem renderMember_shape (k v : String) (x : List Char) :
    renderMember k v ++ x =
      '"' :: (escList k.data ++
        ('"' :: ':' :: ' ' :: ('"' :: (escList v.data ++ ('"' :: x))))) := by
  simp [renderMember, renderJString, List.append_assoc]

theorem parseMembersAux_step (fuel : Nat) (k v : String) (ws x : List Char)
    (hws : ∀ c ∈ ws, isJsonWs c = true) :
    parseMembersAux (fuel + 1) (ws ++ (renderMember k v ++ x)) =
      match skipWs x with
      | ',' :: r6 =>
        (match parseMembersAux fuel r6 with
         | some (tl, rest) => some ((k, v) :: tl, rest)
         | none => none)
      | '}' :: r6 => some ([(k, v)], r6)
      | _ => none := by
  rw [parseMembersAux, skipWs_append_ws _ _ hws, renderMember_shape,
    skipWs_not _ _ (by decide)]
  simp only [parseStringBody_escList, skipWs_not _ _ (by decide : isJsonWs ':' = false),
    skipWs_cons_ws ' ' _ (by decide), string_mk_data]
  rw [skipWs_not _ _ (by decide : isJsonWs '"' = false)]
  simp only [parseStringBody_escList, string_mk_data]

theorem parseMembersAux_render (m : Snapshot) :
    ∀ (k v : String) (ws rest : List Char) (fuel : Nat),
      (∀ c ∈ ws, isJsonWs c = true) → m.length + 1 ≤ fuel →
      parseMembersAux fuel
          (ws ++ (renderMember k v ++ (renderMembersRest m ++ '}' :: rest))) =
        some ((k, v) :: m, rest) := by
  induction m with
  | nil =>
    intro k v ws rest fuel hws hfuel
    match fuel, hfuel with
    | f + 1, _ =>
      rw [parseMembersAux_step f k v ws _ hws, renderMembersRest]
      simp only [List.cons_append, List.nil_append]
      rw [skipWs_cons_ws '\n' _ (by decide), skipWs_not '}' _ (by decide)]
      simp
  | cons kv tl ih =>
    obtain ⟨k2, v2⟩ := kv
    intro k v ws rest fuel hws hfuel
    match fuel, hfuel with
    | f + 1, hfuel =>
      rw [parseMembersAux_step f k v ws _ hws, renderMembersRest]
      simp only [List.cons_append, List.append_assoc]
      rw [skipWs_not ',' _ (by decide)]
      have hrec := ih k2 v2 ('\n' :: sp4) rest f (by decide)
        (by simp only [List.length_cons] at hfuel ⊢; omega)
      simp only [sp4, List.cons_append, List.nil_append, List.append_assoc] at hrec ⊢
      simp [hrec]

theorem renderMembersRest_length (m : Snapshot) :
    m.length ≤ (renderMembersRest m).length := by
  induction m with
  | nil => simp [renderMembersRest]
  | cons kv tl ih =>
    obtain ⟨k, v⟩ := kv
    simp only [renderMembersRest, List.length_cons, List.length_append, sp4]
    omega

/-- C6: saving then loading round-trips exactly: for every snapshot,
`load_state` applied to the text written by `save_state` returns the same
mapping. -/
theorem claim_save_load_roundtrip (s : Snapshot) :
    load_state (some (save_state s)) = some s := by
  cases s with
  | nil => decide
  | cons kv tl =>
    obtain ⟨k, v⟩ := kv
    show parseState (save_state ((k, v) :: tl)).data = some ((k, v) :: tl)
    rw [save_state, string_data_mk, renderStateChars]
    simp only [sp4, List.cons_append, List.nil_append, List.append_assoc]
    rw [parseState]
    generalize hF : ('{' :: '\n' :: ' ' :: ' ' :: ' ' :: ' ' ::
        (renderMember k v ++ (renderMembersRest tl ++ ['}']))).length + 1 = F
    rw [skipWs_not '{' _ (by decide)]
    simp only [skipWs_cons_ws '\n' _ (by decide), skipWs_cons_ws ' ' _ (by decide)]
    have hbound : tl.length + 1 ≤ F := by
      rw [← hF]
      have := renderMembersRest_length tl
      simp only [List.length_cons, List.length_append]
      omega
    have hrec := parseMembersAux_render tl k v ('\n' :: sp4) [] F (by decide) hbound
    simp only [sp4, List.cons_append, List.nil_append, List.append_assoc] at hrec
    simp only [renderMember_shape] at hrec ⊢
    rw [skipWs_not '"' _ (by decide)]
    simp [hrec]
    decide

/-! ## Tree scanner lemmas -/

theorem relString_cons (a : String) (l : List String) (h : l ≠ []) :
    relString (a :: l) = a ++ "/" ++ relString l := by
  cases l with
  | nil => exact absurd rfl h
  | cons x xs => rfl

theorem mem_scanWalk_basename (spec : Option (List String)) :
    ∀ (curAbs : String) (curRel : List String) (entries : List Entry)
      (fp : String) (b : Bool) (c : String),
      (fp, b, c) ∈ scanWalk spec curAbs curRel entries →
      ¬basename fp = IGNORE_FILE := by
  intro curAbs curRel entries
  induction curAbs, curRel, entries using scanWalk.induct spec with
  | case1 curAbs curRel =>
    intro fp b c h
    simp [scanWalk] at h
  | case2 curAbs curRel n rdable content tl ih =>
    intro fp b c h
    simp only [scanWalk] at h
    rw [List.mem_append] at h
    rcases h with h | h
    · split at h
      · simp at h
      · split at h
        · simp at h
        · rename_i hbase hig
          simp only [List.mem_singleton, Prod.mk.injEq] at h
          obtain ⟨h1, _, _⟩ := h
          subst h1
          exact hbase
    · exact ih fp b c h
  | case3 curAbs curRel n ch tl ih1 ih2 =>
    intro fp b c h
    simp only [scanWalk] at h
    rw [List.mem_append] at h
    rcases h with h | h
    · split at h
      · simp at h
      · exact ih1 fp b c h
    · exact ih2 fp b c h

theorem mem_scanWalk (spec : Option (List String)) :
    ∀ (curAbs : String) (curRel : List String) (entries : List Entry),
      wfTree entries = true →
      ∀ (fp : String) (b : Bool) (c : String),
        (fp, b, c) ∈ scanWalk spec curAbs curRel entries →
        ∃ ds n,
          fp = curAbs ++ "/" ++ relString (ds ++ [n]) ∧
          nameOk n = true ∧
          (∀ d ∈ ds, nameOk d = true) ∧
          (∀ j, 1 ≤ j → j ≤ ds.length →
            is_ignored (relString (curRel ++ ds.take j)) spec true = false) ∧
          is_ignored (relString (curRel ++ (ds ++ [n]))) spec false = false := by
  intro curAbs curRel entries
  induction curAbs, curRel, entries using scanWalk.induct spec with
  | case1 curAbs curRel =>
    intro _ fp b c h
    simp [scanWalk] at h
  | case2 curAbs curRel n rdable content tl ih =>
    intro hwf fp b c h
    rw [wfTree, Bool.and_eq_true] at hwf
    simp only [scanWalk] at h
    rw [List.mem_append] at h
    rcases h with h | h
    · split at h
      · simp at h
      · split at h
        · simp at h
        · rename_i hbase hig
          simp only [List.mem_singleton, Prod.mk.injEq] at h
          obtain ⟨h1, _, _⟩ := h
          subst h1
          refine ⟨[], n, by simp [relString], hwf.1, by simp, ?_, ?_⟩
          · intro j hj1 hj2
            simp at hj2
            omega
          · simpa using (Bool.not_eq_true _).mp hig
    · exact ih hwf.2 fp b c h
  | case3 curAbs curRel n ch tl ih1 ih2 =>
    intro hwf fp b c h
    rw [wfTree, Bool.and_eq_true, Bool.and_eq_true] at hwf
    obtain ⟨⟨hn, hch⟩, htl⟩ := hwf
    simp only [scanWalk] at h
    rw [List.mem_append] at h
    rcases h with h | h
    · split at h
      · simp at h
      · rename_i hnig
        obtain ⟨ds', n', hfp, hn', hds', hj', hfile⟩ := ih1 hch fp b c h
        refine ⟨n :: ds', n', ?_, hn', ?_, ?_, ?_⟩
        · rw [hfp, List.cons_append, relString_cons n _ (by simp)]
          simp [String.append_assoc]
        · intro d hd
          rcases List.mem_cons.mp hd with hd | hd
          · subst hd; exact hn
          · exact hds' d hd
        · intro j hj1 hj2
          match j, hj1 with
          | 1, _ =>
            simp only [List.take_succ_cons, List.take_zero]
            have : is_ignored (relString (curRel ++ [n])) spec true = false :=
              Bool.not_eq_true _ |>.mp hnig
            simpa using this
          | j' + 2, _ =>
            have hb := hj' (j' + 1) (by omega)
              (by simp only [List.length_cons] at hj2; omega)
            rw [List.take_succ_cons, List.append_cons]
            exact hb
        · have heq : curRel ++ ((n :: ds') ++ [n']) = (curRel ++ [n]) ++ (ds' ++ [n']) := by
            simp
          rw [heq]
          exact hfile
    · exact ih2 htl fp b c h

theorem hash_file_ok_some_readable {H : HashLib} {algorithm c : String} {b : Bool}
    {s : String} (h : hash_file H algorithm (some (b, c)) = .ok (some s)) :
    b = true := by
  by_cases ha : H.avail algorithm
  · cases b with
    | true => rfl
    | false => simp [hash_file, ha] at h
  · simp [hash_file, ha] at h

theorem scan_ok_key_inv {H : HashLib} {algorithm directory : String}
    {children : List Entry} {snap : Snapshot} {k : String}
    (hscan : scan_directory H algorithm directory children = .ok snap)
    (hk : k ∈ dictKeys snap) :
    ∃ b c s, (k, b, c) ∈ scanWalk (load_ignore_spec children) directory [] children
      ∧ hash_file H algorithm (some (b, c)) = .ok (some s) ∧ s ≠ "" := by
  rw [scan_directory] at hscan
  split at hscan
  · cases hscan
  split at hscan
  · cases hscan
  · rw [Except.ok.injEq] at hscan
    subst hscan
    rw [dictKeys] at hk
    obtain ⟨pr, hpr, hfst⟩ := List.mem_map.mp hk
    obtain ⟨cand, hcand, hg⟩ := List.mem_filterMap.mp hpr
    obtain ⟨fp, b, c⟩ := cand
    cases hh : hash_file H algorithm (some (b, c)) with
    | error e => rw [hh] at hg; simp at hg
    | ok os =>
      cases os with
      | none => rw [hh] at hg; simp at hg
      | some s =>
        rw [hh] at hg
        simp only at hg
        by_cases hs : s = ""
        · rw [if_pos hs] at hg; cases hg
        · rw [if_neg hs] at hg
          rw [Option.some.injEq] at hg
          subst hg
          simp only at hfst
          subst hfst
          exact ⟨b, c, s, hcand, hh, hs⟩

/-- C4: for every hash library, algorithm and root directory, a snapshot
returned by `scan_directory` never contains a key whose basename is the
ignore-rules file name `.fimignore`, wherever in the tree such an entry
sits and whatever it contains. -/
theorem claim_snapshot_no_ignore_file (H : HashLib) (algorithm directory : String)
    (children : List Entry) (snap : Snapshot)
    (hscan : scan_directory H algorithm directory children = .ok snap)
    (k : String) (hk : k ∈ dictKeys snap) :
    basename k ≠ IGNORE_FILE := by
  obtain ⟨b, c, s, hmem, _, _⟩ := scan_ok_key_inv hscan hk
  exact mem_scanWalk_basename _ _ _ _ _ _ _ hmem

/-- A hash library for concrete checks: every algorithm accepted, constant
digest. -/
def HC : HashLib := ⟨fun _ => true, fun _ _ => "h"⟩

/-- A tree with `.fimignore` entries at the root and inside a
subdirectory. -/
def treeC4 : List Entry :=
  [Entry.file ".fimignore" true "*.log\n",
   Entry.dir "sub" [Entry.file ".fimignore" true "junk"],
   Entry.file "a.txt" true "A"]

theorem claim_snapshot_no_ignore_file_witness :
    scan_directory HC "sha256" "r" treeC4 = .ok [("r/a.txt", "h")]
    ∧ "r/a.txt" ∈ dictKeys [("r/a.txt", "h")]
    ∧ basename "r/a.txt" ≠ IGNORE_FILE := by
  have hscan : scan_directory HC "sha256" "r" treeC4 = .ok [("r/a.txt", "h")] := by
    have h0 : ignoreFileOpens treeC4 = true := by decide
    simp only [treeC4] at h0
    have h1 : load_ignore_spec treeC4 = some ["*.log"] := by decide
    simp only [treeC4] at h1
    have h2 : is_ignored "a.txt" (some ["*.log"]) false = false := by decide
    have h3 : is_ignored "sub" (some ["*.log"]) true = false := by decide
    have h5 : basename "r/.fimignore" = IGNORE_FILE := by decide
    have h6 : basename "r/sub/.fimignore" = IGNORE_FILE := by decide
    have h7 : ¬basename "r/a.txt" = IGNORE_FILE := by decide
    simp [scan_directory, scanWalk, treeC4, h0, h1, h2, h3, h5, h6, h7, relString,
      hash_file, HC]
  exact ⟨hscan, by decide,
    claim_snapshot_no_ignore_file HC "sha256" "r" treeC4 _ hscan "r/a.txt" (by decide)⟩

/-- C8: under a supported algorithm, a file that cannot be opened at hash
time yields `Absent` from `hash_file` rather than an error; such files
never abort the scan: whenever the traversal can start at all (the rules
file, if present, opens — the only other abort source), the scan
completes without error, unreadable content files included; and a path
all of whose walked occurrences are unreadable gets no entry in the
snapshot. -/
theorem claim_unreadable_silently_absent (H : HashLib)
    (algorithm directory content : String) (children : List Entry)
    (havail : H.avail algorithm = true) :
    hash_file H algorithm (some (false, content)) = .ok none
    ∧ (ignoreFileOpens children = true →
        ∃ snap, scan_directory H algorithm directory children = .ok snap)
    ∧ (∀ snap, scan_directory H algorithm directory children = .ok snap →
        ∀ k, (∀ b c, (k, b, c) ∈ scanWalk (load_ignore_spec children) directory [] children →
            b = false) →
          k ∉ dictKeys snap) := by
  refine ⟨by simp [hash_file, havail], ?_, ?_⟩
  · intro hopen
    exact ⟨_, by
      rw [scan_directory, if_neg (by simp [hopen]), if_neg (by simp [havail])]⟩
  · intro snap hscan k hall hk
    obtain ⟨b, c, s, hmem, hhash, _⟩ := scan_ok_key_inv hscan hk
    have hb := hash_file_ok_some_readable hhash
    have hfalse := hall b c hmem
    rw [hb] at hfalse
    cases hfalse

/-- A tree with an unreadable file next to a readable one. -/
def treeC8 : List Entry :=
  [Entry.file "locked.txt" false "secret", Entry.file "a.txt" true "A"]

theorem claim_unreadable_silently_absent_witness :
    HC.avail "sha256" = true
    ∧ ignoreFileOpens treeC8 = true
    ∧ hash_file HC "sha256" (some (false, "secret")) = .ok none
    ∧ scan_directory HC "sha256" "r" treeC8 = .ok [("r/a.txt", "h")]
    ∧ "r/locked.txt" ∉ dictKeys [("r/a.txt", "h")] := by
  have hwalk : scanWalk (load_ignore_spec treeC8) "r" [] treeC8
      = [("r/locked.txt", false, "secret"), ("r/a.txt", true, "A")] := by
    have h1 : load_ignore_spec treeC8 = none := by decide
    simp only [treeC8] at h1
    have h5 : ¬basename "r/locked.txt" = IGNORE_FILE := by decide
    have h6 : ¬basename "r/a.txt" = IGNORE_FILE := by decide
    simp [scanWalk, treeC8, h1, h5, h6, is_ignored, relString]
  have hscan : scan_directory HC "sha256" "r" treeC8 = .ok [("r/a.txt", "h")] := by
    rw [scan_directory, if_neg (by decide), if_neg (by simp [HC])]
    rw [hwalk]
    simp [hash_file, HC]
  refine ⟨rfl, by decide,
    (claim_unreadable_silently_absent HC "sha256" "r" "secret" treeC8 rfl).1,
    hscan, ?_⟩
  refine (claim_unreadable_silently_absent HC "sha256" "r" "secret" treeC8 rfl).2.2
    _ hscan "r/locked.txt" ?_
  intro b c h
  rw [hwalk] at h
  simp only [List.mem_cons, List.mem_singleton, Prod.mk.injEq] at h
  rcases h with ⟨_, hb, _⟩ | ⟨hfp, _, _⟩ | h
  · exact hb
  · exact absurd hfp (by decide)
  · exact absurd h (by simp)

/-! ## Directory-rule pruning (C5) -/

theorem nameOk_no_slash {n : String} (h : nameOk n = true) : '/' ∉ n.data := by
  rw [nameOk, Bool.and_eq_true] at h
  intro hm
  have h2 := h.2
  rw [Bool.not_eq_true'] at h2
  have : n.data.contains '/' = true := List.elem_iff.mpr hm
  rw [this] at h2
  cases h2

theorem hasPre_iff (p s : List Char) : hasPre p s = true ↔ ∃ u, p ++ u = s := by
  induction p generalizing s with
  | nil => simp [hasPre]
  | cons a p ih =>
    cases s with
    | nil => simp [hasPre]
    | cons c cs =>
      rw [hasPre, Bool.and_eq_true, decide_eq_true_iff, ih]
      constructor
      · rintro ⟨rfl, u, rfl⟩
        exact ⟨u, rfl⟩
      · rintro ⟨u, hu⟩
        rw [List.cons_append] at hu
        injection hu with h1 h2
        exact ⟨h1, u, h2⟩

theorem slash_split (s : List Char) (hs : '/' ∉ s) :
    ∀ (rest rcs t : List Char), rcs ++ '/' :: t = s ++ '/' :: rest →
      (rcs = s ∧ t = rest) ∨ ∃ rcs2, rcs = s ++ '/' :: rcs2 ∧ rcs2 ++ '/' :: t = rest := by
  induction s with
  | nil =>
    intro rest rcs t h
    rw [List.nil_append] at h
    cases rcs with
    | nil =>
      rw [List.nil_append] at h
      injection h with _ h2
      exact Or.inl ⟨rfl, h2⟩
    | cons c rcs2 =>
      rw [List.cons_append] at h
      injection h with h1 h2
      subst h1
      exact Or.inr ⟨rcs2, rfl, h2⟩
  | cons a s' ih =>
    intro rest rcs t h
    have hs1 : a ≠ '/' := fun hh => hs (hh ▸ List.mem_cons_self a s')
    have hs2 : '/' ∉ s' := fun hh => hs (List.mem_cons_of_mem a hh)
    cases rcs with
    | nil =>
      rw [List.nil_append, List.cons_append] at h
      injection h with h1 _
      exact absurd h1.symm hs1
    | cons c rcs2 =>
      rw [List.cons_append, List.cons_append] at h
      injection h with h1 h2
      subst h1
      rcases ih hs2 rest rcs2 t h2 with ⟨h3, h4⟩ | ⟨r3, h3, h4⟩
      · subst h3
        exact Or.inl ⟨rfl, h4⟩
      · subst h3
        exact Or.inr ⟨r3, rfl, h4⟩

theorem relString_data_cons (a : String) (l : List String) (h : l ≠ []) :
    (relString (a :: l)).data = a.data ++ '/' :: (relString l).data := by
  rw [relString_cons a l h]
  simp [String.data_append]

theorem rel_boundary : ∀ (ds : List String) (n r t : String),
    (∀ d ∈ ds, nameOk d = true) → nameOk n = true →
    (relString (ds ++ [n])).data = r.data ++ '/' :: t.data →
    ∃ j, 1 ≤ j ∧ j ≤ ds.length ∧ r = relString (ds.take j) := by
  intro ds
  induction ds with
  | nil =>
    intro n r t _ hn h
    exfalso
    rw [List.nil_append] at h
    have hd : (relString [n]).data = n.data := rfl
    rw [hd] at h
    apply nameOk_no_slash hn
    rw [h]
    simp
  | cons d ds' ih =>
    intro n r t hds hn h
    have hnd : '/' ∉ d.data := nameOk_no_slash (hds d (List.mem_cons_self d ds'))
    rw [show (d :: ds') ++ [n] = d :: (ds' ++ [n]) from rfl,
      relString_data_cons d _ (by simp)] at h
    rcases slash_split d.data hnd _ r.data t.data h.symm with ⟨h1, _⟩ | ⟨rcs2, h1, h2⟩
    · refine ⟨1, le_refl 1, by simp, ?_⟩
      have : String.mk r.data = String.mk d.data := congrArg String.mk h1
      rw [string_mk_data, string_mk_data] at this
      rw [this]
      rfl
    · cases ds' with
      | nil =>
        exfalso
        have hd : (relString ([] ++ [n])).data = n.data := rfl
        rw [hd] at h2
        apply nameOk_no_slash hn
        rw [← h2]
        simp
      | cons e es =>
        have hrec := ih n (String.mk rcs2) t
          (fun d2 hd2 => hds d2 (List.mem_cons_of_mem d hd2)) hn
          (by rw [string_data_mk]; exact h2.symm)
        obtain ⟨j, hj1, hj2, hj3⟩ := hrec
        refine ⟨j + 1, by omega, by simp only [List.length_cons] at hj2 ⊢; omega, ?_⟩
        have htake : (d :: e :: es).take (j + 1) = d :: (e :: es).take j := by
          rw [List.take_succ_cons]
        rw [htake]
        have hne : (e :: es).take j ≠ [] := by
          match j, hj1 with
          | j' + 1, _ => simp [List.take_succ_cons]
        rw [relString_cons d _ hne]
        have hr2 : rcs2 = (relString ((e :: es).take j)).data := by
          have := congrArg String.data hj3
          rw [string_data_mk] at this
          exact this
        have : r.data = (d ++ "/" ++ relString ((e :: es).take j)).data := by
          rw [h1, hr2]
          simp [String.data_append]
        have := congrArg String.mk this
        rw [string_mk_data, string_mk_data] at this
        exact this

theorem is_ignored_dir_of (pats : List String) (pat rel : String) (hmem : pat ∈ pats)
    (hend : endsSlash pat = true)
    (hmatch : dirRuleMatches (dropLastStr pat) rel = true) :
    is_ignored rel (some pats) true = true := by
  rw [is_ignored]
  apply List.any_eq_true.mpr
  refine ⟨pat, hmem, ?_⟩
  rw [if_pos hend]
  simp [hmatch]

theorem is_ignored_file_of (pats : List String) (pat rel : String) (hmem : pat ∈ pats)
    (hend : endsSlash pat = true)
    (hpre : hasPre ((dropLastStr pat).data ++ ['/']) rel.data = true) :
    is_ignored rel (some pats) false = true := by
  rw [is_ignored]
  apply List.any_eq_true.mpr
  refine ⟨pat, hmem, ?_⟩
  rw [if_pos hend]
  simp [hpre]

/-- C5: when the rule set holds a directory rule `pat` (ending in `/`),
no file lying under a directory that the rule matches appears in the
snapshot — whether the directory was pruned before descent or the file is
caught by the under-directory test, its key is absent, regardless of
whether the file itself matches any file pattern. -/
theorem claim_dir_rule_excludes (H : HashLib) (algorithm directory : String)
    (children : List Entry) (snap : Snapshot) (pats : List String)
    (pat r t k : String)
    (hwf : wfTree children = true)
    (hscan : scan_directory H algorithm directory children = .ok snap)
    (hspec : load_ignore_spec children = some pats)
    (hpat : pat ∈ pats) (hslash : endsSlash pat = true)
    (hmatch : dirRuleMatches (dropLastStr pat) r = true)
    (hk : k = directory ++ "/" ++ r ++ "/" ++ t) :
    k ∉ dictKeys snap := by
  intro hkmem
  obtain ⟨b, c, s, hmem, _, _⟩ := scan_ok_key_inv hscan hkmem
  rw [hspec] at hmem
  obtain ⟨ds, n, hfp, hn, hds, hj, hfile⟩ :=
    mem_scanWalk (some pats) directory [] children hwf k b c hmem
  have hstr : directory ++ "/" ++ relString (ds ++ [n]) =
      directory ++ "/" ++ r ++ "/" ++ t := hfp.symm.trans hk
  have hdata : (relString (ds ++ [n])).data = r.data ++ '/' :: t.data := by
    have hd := congrArg String.data hstr
    simp only [String.data_append, show ("/" : String).data = ['/'] from rfl,
      List.append_assoc, List.singleton_append] at hd
    have h2 := List.append_cancel_left hd
    injection h2 with _ h3
  rw [dirRuleMatches, Bool.or_eq_true] at hmatch
  rcases hmatch with hf | hp
  · obtain ⟨j, hj1, hj2, hj3⟩ := rel_boundary ds n r t hds hn hdata
    have hig := is_ignored_dir_of pats pat (relString (ds.take j)) hpat hslash
      (by rw [dirRuleMatches, ← hj3, hf, Bool.true_or])
    have hfalse := hj j hj1 hj2
    rw [List.nil_append] at hfalse
    rw [hfalse] at hig
    cases hig
  · have hpre2 : hasPre ((dropLastStr pat).data ++ ['/'])
        (relString (ds ++ [n])).data = true := by
      obtain ⟨u, hu⟩ := (hasPre_iff _ _).mp hp
      apply (hasPre_iff _ _).mpr
      refine ⟨u ++ '/' :: t.data, ?_⟩
      rw [← List.append_assoc, hu, hdata]
    have hig := is_ignored_file_of pats pat (relString (ds ++ [n])) hpat hslash hpre2
    rw [List.nil_append] at hfile
    rw [hfile] at hig
    cases hig

/-- A tree whose rules file ignores the `build` directory. -/
def treeC5 : List Entry :=
  [Entry.file ".fimignore" true "build/\n",
   Entry.dir "build" [Entry.file "x.txt" true "z"]]

theorem claim_dir_rule_excludes_witness :
    wfTree treeC5 = true
    ∧ scan_directory HC "sha256" "r" treeC5 = .ok []
    ∧ load_ignore_spec treeC5 = some ["build/"]
    ∧ "build/" ∈ ["build/"]
    ∧ endsSlash "build/" = true
    ∧ dirRuleMatches (dropLastStr "build/") "build" = true
    ∧ "r/build/x.txt" = "r" ++ "/" ++ "build" ++ "/" ++ "x.txt"
    ∧ "r/build/x.txt" ∉ dictKeys ([] : Snapshot) := by
  have hwf : wfTree treeC5 = true := by
    have n1 : nameOk ".fimignore" = true := by decide
    have n2 : nameOk "build" = true := by decide
    have n3 : nameOk "x.txt" = true := by decide
    simp [treeC5, wfTree, n1, n2, n3]
  have hspec : load_ignore_spec treeC5 = some ["build/"] := by decide
  have hscan : scan_directory HC "sha256" "r" treeC5 = .ok [] := by
    have h0 : ignoreFileOpens treeC5 = true := by decide
    simp only [treeC5] at h0
    have h1 := hspec
    simp only [treeC5] at h1
    have h2 : is_ignored "build" (some ["build/"]) true = true := by decide
    have h5 : basename "r/.fimignore" = IGNORE_FILE := by decide
    simp [scan_directory, scanWalk, treeC5, h0, h1, h2, h5, relString]
  refine ⟨hwf, hscan, hspec, by decide, by decide, by decide, by decide, ?_⟩
  exact claim_dir_rule_excludes HC "sha256" "r" treeC5 [] ["build/"] "build/" "build"
    "x.txt" "r/build/x.txt" hwf hscan hspec (by decide) (by decide) (by decide) (by decide)
